import Mathlib

/-!
Verification of the pubmed-mesh-utils repository.

The MeSH hierarchy is described only by dot-delimited position strings.
Positions are modelled as lists of characters (Python strings), term
identifiers are an arbitrary type with decidable equality (the source uses
strings), and Python dicts are modelled as association lists iterated in
insertion order, or as their lookup functions when only lookups occur.

Python numbers flowing through the similarity computation are modelled by
the type PyVal below: an integer, a float (with the rational value, or none
for a float nan), or the distinguished numpy nan object.  The distinction
matters because the source tests `num is np.NaN` and `denom is 0` with the
identity operator: a freshly computed float nan is never the numpy nan
object, and a float zero is never the interned int 0 object.

Float arithmetic on defined values is modelled exactly over the rationals,
with nan propagating.  IEEE-754 rounding and summation-order effects are
outside this model, so nothing here speaks to bit-level float equality of
sums evaluated in different orders.
-/

abbrev Pos := List Char

/-- Python `s.split(".")` on a character list. -/
def splitDots : List Char → List (List Char)
  | [] => [[]]
  | c :: rest =>
    let r := splitDots rest
    if c = '.' then [] :: r
    else
      match r with
      | [] => [[c]]
      | s :: ss => (c :: s) :: ss

/-- Python `len(s.split("."))`, the depth of a position string. -/
def depth (s : Pos) : ℕ := (splitDots s).length

/-- Python `".".join(parts)`. -/
def joinDots : List (List Char) → List Char
  | [] => []
  | [s] => s
  | s :: t :: rest => s ++ '.' :: joinDots (t :: rest)

/-- Python `t.startswith(v)` on character lists, helper for the substring test. -/
def startsWith : List Char → List Char → Bool
  | [], _ => true
  | _ :: _, [] => false
  | a :: as, b :: bs => a = b && startsWith as bs

/-- Python `t in v` for strings: t occurs as a contiguous substring of v. -/
def pyInStr (t : List Char) : List Char → Bool
  | [] => t.isEmpty
  | c :: rest => startsWith t (c :: rest) || pyInStr t rest

/-- A term-trees dict, insertion ordered: term identifier to its position strings. -/
abbrev TreeDict (α : Type) := List (α × List Pos)

/-- Python dict lookup `d[k]` over an association list with unique keys. -/
def dlookup {α β : Type} [DecidableEq α] (d : List (α × β)) (k : α) : Option β :=
  (d.find? (fun e => e.1 = k)).map (fun e => e.2)

/-- Python `list(dict.fromkeys(l))`, removing duplicates keeping first occurrences;
seen accumulates the elements already emitted. -/
def dedupFirstAux {α : Type} [DecidableEq α] (seen : List α) : List α → List α
  | [] => []
  | a :: l => if a ∈ seen then dedupFirstAux seen l else a :: dedupFirstAux (a :: seen) l

/-- Python `list(dict.fromkeys(l))`. -/
def dedupFirst {α : Type} [DecidableEq α] (l : List α) : List α := dedupFirstAux [] l

/-- Mapping a fallible function over a list, Python lists evaluated left to right
where any element may raise. -/
def optList {α β : Type} (f : α → Option β) : List α → Option (List β)
  | [] => some []
  | a :: l =>
    match f a, optList f l with
    | some b, some bs => some (b :: bs)
    | _, _ => none

section Navigator

variable {α : Type} [DecidableEq α]

/-- The source's get_children (semantic_similarity.py lines 20 to 45): returns
none on a KeyError or IndexError, some [] when the first position is the empty
string, and otherwise the scan over all terms' positions selecting any position
that contains one of the term's positions as a substring at depth exactly one
more, for a different identifier, deduplicated keeping first occurrences. -/
def get_children (uid : α) (term_trees : TreeDict α) : Option (List α) :=
  match dlookup term_trees uid with
  | none => none
  | some [] => none
  | some (v :: vs) =>
    if v.length = 0 then some []
    else
      some (dedupFirst ((v :: vs).flatMap (fun tree =>
        term_trees.flatMap (fun kv =>
          kv.2.filterMap (fun val =>
            if pyInStr tree val = true ∧ uid ≠ kv.1 ∧ depth val = depth tree + 1
            then some kv.1 else none)))))

/-- Modelled from the spec's words (section 4.2), for comparison with the
source's get_children: select any position whose prefix, all but the final
dot-segment, equals one of the term's positions and whose depth is exactly one
more; empty when the term has no non-empty position. -/
def childrenSpec (uid : α) (term_trees : TreeDict α) : List α :=
  match dlookup term_trees uid with
  | none => []
  | some vals =>
    if vals.all (fun v => v = []) then []
    else
      dedupFirst ((vals.filter (fun v => v ≠ [])).flatMap (fun tree =>
        term_trees.flatMap (fun kv =>
          kv.2.filterMap (fun val =>
            if joinDots ((splitDots val).dropLast) = tree ∧ depth val = depth tree + 1
            then some kv.1 else none))))

end Navigator

section Ancestors

variable {α : Type} [DecidableEq α]

/-- The while loop of the source's get_ancestors (semantic_similarity.py lines
91 to 100): process the position at index idx, append the truncations by one
dot-segment of every position of the term owning it, drop empty strings,
deduplicate keeping first occurrences, and advance.  The reverse dict is
modelled by its lookup function; a failed lookup is Python's KeyError, modelled
as none, as is running out of fuel (the loop cannot be shown terminating for
arbitrary inputs). -/
def ancLoop (term_trees : TreeDict α) (rev : Pos → Option α) :
    ℕ → List Pos → ℕ → Option (List Pos)
  | 0, _, _ => none
  | fuel + 1, ancestors, idx =>
    if h : idx < ancestors.length then
      match rev (ancestors.get ⟨idx, h⟩) with
      | none => none
      | some owner =>
        match dlookup term_trees owner with
        | none => none
        | some trees =>
          let extended := ancestors ++ trees.map (fun tree => joinDots ((splitDots tree).dropLast))
          ancLoop term_trees rev fuel (dedupFirst (extended.filter (fun a => a ≠ []))) (idx + 1)
    else some ancestors

/-- The source's get_ancestors (semantic_similarity.py lines 76 to 103): start
from the term's non-empty positions, run the fixed-point loop, then map every
resulting position to its owning term and deduplicate. -/
def get_ancestors (fuel : ℕ) (uid : α) (term_trees : TreeDict α) (rev : Pos → Option α) :
    Option (List α) :=
  match dlookup term_trees uid with
  | none => none
  | some vals =>
    match ancLoop term_trees rev fuel (vals.filter (fun a => a ≠ [])) 0 with
    | none => none
    | some positions =>
      match optList rev positions with
      | none => none
      | some owners => some (dedupFirst owners)

end Ancestors

section Freq

variable {α : Type} [DecidableEq α]

/-- The source's freq (semantic_similarity.py lines 47 to 74): return the
memoized value when it is not the -1 sentinel, the term's own count at a leaf,
and otherwise the own count plus the recursively computed frequency of every
child.  The counts and memo dicts are modelled by total functions (the
program keys them on every UID); the recursion carries fuel because
termination is not guaranteed for arbitrary position data. -/
def freq (counts : α → ℤ) (memo : α → ℤ) (term_trees : TreeDict α) :
    ℕ → α → Option ℤ
  | 0, _ => none
  | fuel + 1, uid =>
    if memo uid ≠ -1 then some (memo uid)
    else
      match get_children uid term_trees with
      | none => none
      | some [] => some (counts uid)
      | some (c :: cs) =>
        (optList (fun child => freq counts memo term_trees fuel child) (c :: cs)).map
          (fun vs => counts uid + vs.sum)

/-- The max depth scan of get_term_freqs (semantic_similarity.py lines 195 to 200). -/
def maxDepth (term_trees : TreeDict α) : ℕ :=
  term_trees.foldl (fun m e => e.2.foldl (fun m tree =>
    if depth tree > m then depth tree else m) m) 0

/-- Python `range(max_depth, 0, -1)`. -/
def depthsDesc (n : ℕ) : List ℕ := (List.range n).map (fun i => n - i)

/-- The depth-descending term ordering of get_term_freqs (semantic_similarity.py
lines 202 to 209): for each depth from the maximum down to 1, append each term
having a position of that depth, unless already listed. -/
def sortedTerms (term_trees : TreeDict α) : List α :=
  (depthsDesc (maxDepth term_trees)).foldl (fun acc d =>
    term_trees.foldl (fun acc e =>
      if (e.2.any (fun tree => depth tree = d)) ∧ e.1 ∉ acc then acc ++ [e.1] else acc) acc) []

/-- The source's get_term_freqs (semantic_similarity.py lines 175 to 219): start
every memo entry at the -1 sentinel, and process the terms in depth-descending
order, writing each term's computed frequency into the memo after its call
returns.  The uids list only seeds the memo dict in the source, modelled here
as a total function. -/
def get_term_freqs (fuel : ℕ) (counts : α → ℤ) (term_trees : TreeDict α) (uids : List α) :
    Option (α → ℤ) :=
  let memo0 : α → ℤ := fun _ => -1
  (sortedTerms term_trees).foldlM (fun memo term =>
    (freq counts memo term_trees fuel term).map
      (fun v => fun t => if t = term then v else memo t)) memo0

end Freq

/-- A Python numeric value as seen by semantic_similarity: an int, a float
holding a rational (none for a float nan), or the numpy nan singleton, which
only matters for the identity tests written with the `is` operator. -/
inductive PyVal : Type where
  | int : ℤ → PyVal
  | float : Option ℚ → PyVal
  | npNaN : PyVal
deriving DecidableEq

/-- Numeric value of a PyVal; nan in any form is none. -/
def toQ : PyVal → Option ℚ
  | .int a => some (a : ℚ)
  | .float x => x
  | .npNaN => none

/-- Addition on the optional rationals backing floats; nan absorbs. -/
def addQ : Option ℚ → Option ℚ → Option ℚ
  | some p, some q => some (p + q)
  | _, _ => none

/-- Python addition as it occurs in the source: int plus int stays an int;
any other combination produces a fresh float, nan propagating. -/
def pyAdd (x y : PyVal) : PyVal :=
  match x, y with
  | .int a, .int b => .int (a + b)
  | a, b => .float (addQ (toQ a) (toQ b))

/-- Python `sum(l)`: a left fold of additions starting from the int 0. -/
def pySum (l : List PyVal) : PyVal := l.foldl pyAdd (.int 0)

/-- Python `2 * v`: doubling an int stays an int, anything else is a fresh
float, so the result is never the numpy nan object. -/
def pyTwoMul : PyVal → PyVal
  | .int a => .int (2 * a)
  | .float x => .float (x.map (fun q => 2 * q))
  | .npNaN => .float none

/-- Python `x / y` true division: ZeroDivisionError (none) when the divisor is
an exact zero, a float nan when either side is nan, otherwise the quotient. -/
def pyDiv (x y : PyVal) : Option PyVal :=
  match toQ y with
  | none => some (.float none)
  | some q => if q = 0 then none else some (.float ((toQ x).map (fun p => p / q)))

section Similarity

variable {α : Type} [DecidableEq α]

/-- The source's semantic_similarity (semantic_similarity.py lines 106 to 126):
intersect the two ancestor lists, sum the doubled semantic weights over the
intersection, add the two semantic values, and divide - except that the guard
`num is np.NaN or denom is 0` returns the int 0 when the numerator is the
numpy nan object (impossible for a computed sum) or the denominator is the
interned int 0 (both semantic values int zeros).  none models an uncaught
exception. -/
def semantic_similarity (fuel : ℕ) (uid1 uid2 : α) (sws svs : α → PyVal)
    (term_trees : TreeDict α) (rev : Pos → Option α) : Option PyVal :=
  match get_ancestors fuel uid1 term_trees rev, get_ancestors fuel uid2 term_trees rev with
  | some ancs1, some ancs2 =>
    let intersection := ancs1.filter (fun anc => anc ∈ ancs2)
    let num := pySum (intersection.map (fun term => pyTwoMul (sws term)))
    let denom := pyAdd (svs uid1) (svs uid2)
    if num = PyVal.npNaN ∨ denom = PyVal.int 0 then some (.int 0) else pyDiv num denom
  | _, _ => none

end Similarity

section RevIndex

variable {α : Type} [DecidableEq α]

/-- The position-to-term pair list underlying the dict comprehension
`{tree: uids[idx] for idx in range(len(uids)) for tree in trees[idx]}`
(semantic_similarity.py line 306), in comprehension order. -/
def term_trees_rev (entries : List (α × List Pos)) : List (Pos × α) :=
  entries.flatMap (fun e => e.2.map (fun tree => (tree, e.1)))

/-- Lookup in the dict built from a pair list by successive assignment: a later
pair with the same key silently overwrites an earlier one. -/
def revLookup (pairs : List (Pos × α)) (p : Pos) : Option α :=
  pairs.foldl (fun acc e => if e.1 = p then some e.2 else acc) none

end RevIndex

/-- Python `line.strip(c)` for a single strip character. -/
def stripChar (c : Char) (l : List Char) : List Char :=
  ((l.dropWhile (fun a => a = c)).reverse.dropWhile (fun a => a = c)).reverse

/-- Python `s.split(c)` on a character list, generalizing splitDots. -/
def splitOnChar (sep : Char) : List Char → List (List Char)
  | [] => [[]]
  | c :: rest =>
    let r := splitOnChar sep rest
    if c = sep then [] :: r
    else
      match r with
      | [] => [[c]]
      | s :: ss => (c :: s) :: ss

/-- One incidence row of td_matrix_gen (term_co-occurrence.py lines 87 to 94):
strip the newline, split on commas, drop the leading document id, and mark each
subset term present or absent. -/
def tdRow (term_subset : List Pos) (line : List Char) : List ℕ :=
  let parts := splitOnChar ',' (stripChar '\n' line)
  let terms := parts.drop 1
  term_subset.map (fun uid => if uid ∈ terms then 1 else 0)

/-- The loop of td_matrix_gen (term_co-occurrence.py lines 83 to 95): before
parsing each line, yield the accumulated rows when they exceed docs_per_matrix
and reset; the accumulator remaining when the file ends is never yielded. -/
def tdLoop (term_subset : List Pos) (docs_per_matrix : ℕ) :
    List (List Char) → List (List ℕ) → List (List (List ℕ))
  | [], _ => []
  | line :: rest, td_matrix =>
    if td_matrix.length > docs_per_matrix then
      td_matrix :: tdLoop term_subset docs_per_matrix rest [tdRow term_subset line]
    else
      tdLoop term_subset docs_per_matrix rest (td_matrix ++ [tdRow term_subset line])

/-- The source's td_matrix_gen (term_co-occurrence.py lines 80 to 95) as the
list of chunks it yields over the lines of the input file. -/
def td_matrix_gen (lines : List (List Char)) (term_subset : List Pos)
    (docs_per_matrix : ℕ) : List (List (List ℕ)) :=
  tdLoop term_subset docs_per_matrix lines []


/-!
Concrete fixtures for the claim-level evaluations.  Identifiers follow the
worked scenario of the spec (terms A, B, C) plus the inputs exhibiting the
divergences; positions are written out as character lists.
-/

def uA : String := "A"

def uB : String := "B"

def uC : String := "C"

def t1 : List Char := ['1']

def t1001 : List Char := ['1', '.', '0', '0', '1']

def t1001001 : List Char := ['1', '.', '0', '0', '1', '.', '0', '0', '1']

def t11001002 : List Char := ['1', '1', '.', '0', '0', '1', '.', '0', '0', '2']

/-- The three-term scenario hierarchy of the spec: A at 1, B at 1.001, C at 1.001.001. -/
def ttABC : TreeDict String := [(uA, [t1]), (uB, [t1001]), (uC, [t1001001])]

/-- Own counts A=2, B=3, C=5 of the scenario. -/
def countsABC : String → ℤ := fun u => if u = uA then 2 else if u = uB then 3 else 5

/-- Two terms whose positions overlap as substrings without a parent-child
relation: 1.001 is a substring of 11.001.002 although not its dot-prefix. -/
def ttC2 : TreeDict String := [(uA, [t1001]), (uB, [t11001002])]

/-- Two-term hierarchy: A at 1 with child B at 1.001. -/
def ttAB : TreeDict String := [(uA, [t1]), (uB, [t1001])]

/-- The reverse position index of ttAB. -/
def revAB : Pos → Option String :=
  fun p => if p = t1 then some uA else if p = t1001 then some uB else none

/-- Semantic weights where A's weight is a float nan, the state the pipeline
reaches for a zero-probability term. -/
def swsC1 : String → PyVal := fun u => if u = uA then .float none else .float (some 1)

/-- Semantic values that are float nans, the state the pipeline reaches when
weights are nan. -/
def svsC1 : String → PyVal := fun _ => .float none

/-- A term whose only position is the empty string: present in the dicts but
part of no tree. -/
def ttEmptyPos : TreeDict String := [(uA, [([] : List Char)])]

/-- A single-term hierarchy with just A at position 1, a leaf. -/
def ttLeafA : TreeDict String := [(uA, [t1])]

/-- A memo with A already set to 7, everything else unset. -/
def memoC5 : String → ℤ := fun t => if t = uA then 7 else -1

/-- The fresh memo: every entry at the -1 sentinel. -/
def freshMemo {α : Type} : α → ℤ := fun _ => -1

/-- Constant own count 3. -/
def countsC5 : String → ℤ := fun _ => 3

/-- Constant own count 4. -/
def countsW : String → ℤ := fun _ => 4

/-- Own counts 5 for A and 0 elsewhere: B's zero count makes the non-leaf A
reach its own count exactly. -/
def countsC7 : String → ℤ := fun u => if u = uA then 5 else 0

/-- An everywhere-failing reverse index: no position is owned. -/
def revNone : Pos → Option String := fun _ => none

/-- Three one-character incidence lines. -/
def linesEx : List (List Char) := [['a'], ['b'], ['c']]

/-- A one-term subset for the incidence rows. -/
def tsEx : List Pos := [['T']]

section DedupLemmas

variable {α : Type} [DecidableEq α]

theorem mem_dedupFirstAux {x : α} : ∀ {l seen : List α},
    x ∈ dedupFirstAux seen l ↔ x ∈ l ∧ x ∉ seen := by
  intro l
  induction l with
  | nil => intro seen; simp [dedupFirstAux]
  | cons a l ih =>
    intro seen
    by_cases h : a ∈ seen
    · simp only [dedupFirstAux, if_pos h, ih, List.mem_cons]
      constructor
      · exact fun ⟨hl, hs⟩ => ⟨Or.inr hl, hs⟩
      · rintro ⟨(rfl | hl), hs⟩
        · exact absurd h hs
        · exact ⟨hl, hs⟩
    · simp only [dedupFirstAux, if_neg h, List.mem_cons, ih]
      by_cases hx : x = a
      · subst hx; simp [h]
      · simp [hx]

theorem mem_dedupFirst {x : α} {l : List α} : x ∈ dedupFirst l ↔ x ∈ l := by
  simp [dedupFirst, mem_dedupFirstAux]

theorem nodup_dedupFirstAux : ∀ (l seen : List α), (dedupFirstAux seen l).Nodup := by
  intro l
  induction l with
  | nil => intro seen; simp [dedupFirstAux]
  | cons a l ih =>
    intro seen
    by_cases h : a ∈ seen
    · simpa [dedupFirstAux, if_pos h] using ih seen
    · rw [dedupFirstAux, if_neg h]
      refine List.nodup_cons.mpr ⟨?_, ih (a :: seen)⟩
      intro hmem
      exact (mem_dedupFirstAux.mp hmem).2 (List.mem_cons_self a seen)

theorem nodup_dedupFirst (l : List α) : (dedupFirst l).Nodup := nodup_dedupFirstAux l []

end DedupLemmas

section OptListLemmas

variable {α β : Type}

theorem optList_mem {f : α → Option β} : ∀ {l : List α} {bs : List β},
    optList f l = some bs → ∀ {x y}, x ∈ l → f x = some y → y ∈ bs := by
  intro l
  induction l with
  | nil => intro bs h x y hx; simp at hx
  | cons a l ih =>
    intro bs h x y hx hf
    rw [optList] at h
    cases ha : f a with
    | none => rw [ha] at h; simp at h
    | some b =>
      rw [ha] at h
      cases hl : optList f l with
      | none => rw [hl] at h; simp at h
      | some bs0 =>
        rw [hl] at h
        simp only [Option.some.injEq] at h
        subst h
        rcases List.mem_cons.mp hx with rfl | hx0
        · rw [ha] at hf
          simp only [Option.some.injEq] at hf
          subst hf
          exact List.mem_cons_self _ _
        · exact List.mem_cons_of_mem _ (ih hl hx0 hf)

theorem optList_sound {f : α → Option β} : ∀ {l : List α} {bs : List β},
    optList f l = some bs → ∀ b ∈ bs, ∃ a ∈ l, f a = some b := by
  intro l
  induction l with
  | nil =>
    intro bs h b hb
    rw [optList] at h
    simp only [Option.some.injEq] at h
    subst h; simp at hb
  | cons a l ih =>
    intro bs h b hb
    rw [optList] at h
    cases ha : f a with
    | none => rw [ha] at h; simp at h
    | some b0 =>
      rw [ha] at h
      cases hl : optList f l with
      | none => rw [hl] at h; simp at h
      | some bs0 =>
        rw [hl] at h
        simp only [Option.some.injEq] at h
        subst h
        rcases List.mem_cons.mp hb with rfl | hb0
        · exact ⟨a, List.mem_cons_self _ _, ha⟩
        · obtain ⟨a0, ha0, hfa0⟩ := ih hl b hb0
          exact ⟨a0, List.mem_cons_of_mem _ ha0, hfa0⟩

end OptListLemmas




section AncLoopLemmas

variable {α : Type} [DecidableEq α]

theorem ancLoop_mem {tt : TreeDict α} {rev : Pos → Option α} :
    ∀ {fuel : ℕ} {ancs : List Pos} {idx : ℕ} {out : List Pos},
      ancLoop tt rev fuel ancs idx = some out →
      ∀ {p : Pos}, p ∈ ancs → p ≠ [] → p ∈ out := by
  intro fuel
  induction fuel with
  | zero => intro ancs idx out h; simp [ancLoop] at h
  | succ fuel ih =>
    intro ancs idx out h p hp hne
    rw [ancLoop] at h
    split at h
    · split at h
      · simp at h
      · split at h
        · simp at h
        · refine ih h ?_ hne
          refine mem_dedupFirst.mpr (List.mem_filter.mpr ⟨?_, by simp [hne]⟩)
          exact List.mem_append_left _ hp
    · simp only [Option.some.injEq] at h
      subst h
      exact hp

end AncLoopLemmas

section RevLookupLemmas

variable {α : Type} [DecidableEq α]

theorem foldl_assign_no_key {pairs : List (Pos × α)} {p : Pos}
    (h : ∀ e ∈ pairs, e.1 ≠ p) :
    ∀ acc, pairs.foldl (fun acc e => if e.1 = p then some e.2 else acc) acc = acc := by
  induction pairs with
  | nil => intro acc; rfl
  | cons e l ih =>
    intro acc
    rw [List.foldl_cons, if_neg (h e (List.mem_cons_self _ _))]
    exact ih (fun x hx => h x (List.mem_cons_of_mem _ hx)) acc

theorem foldl_assign_mem {ts : List Pos} {u : α} {p : Pos} (hp : p ∈ ts) :
    ∀ acc, (ts.map (fun t => (t, u))).foldl
      (fun acc e => if e.1 = p then some e.2 else acc) acc = some u := by
  induction ts with
  | nil => exact absurd hp (List.not_mem_nil p)
  | cons t ts ih =>
    intro acc
    simp only [List.map_cons, List.foldl_cons]
    by_cases hmem : p ∈ ts
    · exact ih hmem _
    · have ht : t = p := by
        rcases List.mem_cons.mp hp with h1 | h1
        · exact h1.symm
        · exact absurd h1 hmem
      rw [if_pos ht]
      refine foldl_assign_no_key ?_ _
      intro e he
      obtain ⟨t0, ht0, rfl⟩ := List.mem_map.mp he
      intro hc
      exact hmem (hc ▸ ht0)

end RevLookupLemmas

section TdLoopLemmas

theorem tdLoop_chunk_len {ts : List Pos} {B : ℕ} :
    ∀ {lines : List (List Char)} {acc : List (List ℕ)}, acc.length ≤ B + 1 →
      ∀ c ∈ tdLoop ts B lines acc, c.length = B + 1 := by
  intro lines
  induction lines with
  | nil => intro acc hacc c hc; simp [tdLoop] at hc
  | cons line rest ih =>
    intro acc hacc c hc
    rw [tdLoop] at hc
    split at hc
    · rename_i hgt
      rcases List.mem_cons.mp hc with rfl | hc0
      · omega
      · exact ih (by simp) c hc0
    · rename_i hle
      refine ih ?_ c hc
      simp only [List.length_append, List.length_cons, List.length_nil]
      omega

theorem tdLoop_sum_lt (ts : List Pos) (B : ℕ) :
    ∀ (lines : List (List Char)) (acc : List (List ℕ)), lines ≠ [] →
      ((tdLoop ts B lines acc).map List.length).sum < acc.length + lines.length := by
  intro lines
  induction lines with
  | nil => intro acc h; exact absurd rfl h
  | cons line rest ih =>
    intro acc _
    rw [tdLoop]
    by_cases hrest : rest = []
    · subst hrest
      split
      · simp [tdLoop]
      · simp [tdLoop]
    · split
      · have h2 := ih [tdRow ts line] hrest
        simp only [List.length_cons, List.length_nil] at h2
        simp only [List.map_cons, List.sum_cons, List.length_cons]
        omega
      · have h2 := ih (acc ++ [tdRow ts line]) hrest
        simp only [List.length_append, List.length_cons, List.length_nil] at h2
        simp only [List.length_cons]
        omega

end TdLoopLemmas

/-- C1: the claim says semantic_similarity returns 0 whenever the denominator
is zero or the numerator is undefined.  On the two-term hierarchy where A's
semantic weight is a float nan (the state reached for a zero-probability term)
the computed numerator is a float nan, the identity test against the numpy nan
object fails, and the function returns the nan instead of 0. -/
theorem C1_similarity_nan_eval :
    semantic_similarity 10 uA uB swsC1 svsC1 ttAB revAB = some (.float none) := by decide

/-- C9 counterexample: with chunk-size constant 1 and three input lines the
generator yields a single chunk of two rows, so not every chunk contains
exactly the constant's number of documents. -/
theorem C9_chunk_size_counterexample :
    td_matrix_gen linesEx tsEx 1 = [[[0], [0]]] ∧ ([[0], [0]] : List (List ℕ)).length ≠ 1 := by
  decide

/-- C9 amended: every chunk the generator yields contains exactly one more
document than the docs_per_matrix constant, because a chunk is emitted only
once its length exceeds the constant. -/
theorem C9_chunk_size (lines : List (List Char)) (ts : List Pos) (B : ℕ)
    (c : List (List ℕ)) (hc : c ∈ td_matrix_gen lines ts B) : c.length = B + 1 :=
  tdLoop_chunk_len (by simp) c hc

/-- C9 witness: the concrete chunk from the counterexample input indeed has
length docs_per_matrix plus one. -/
theorem C9_chunk_size_witness : ([[0], [0]] : List (List ℕ)).length = 1 + 1 :=
  C9_chunk_size linesEx tsEx 1 [[0], [0]] (by decide)

/-- C10: the generator yields only when the accumulated rows exceed the
threshold and never flushes the remainder, so whenever the document count is
not an exact multiple of the emitted chunk size, the rows it hands on are
strictly fewer than the documents read: trailing documents are dropped. -/
theorem C10_trailing_docs_dropped (lines : List (List Char)) (ts : List Pos) (B : ℕ)
    (h : lines.length % (B + 1) ≠ 0) :
    ((td_matrix_gen lines ts B).map List.length).sum < lines.length := by
  have hne : lines ≠ [] := by
    intro hnil
    subst hnil
    simp at h
  have hlt := tdLoop_sum_lt ts B lines ([] : List (List ℕ)) hne
  simpa [td_matrix_gen] using hlt

/-- C10 witness: three documents with chunk constant 1 are not a multiple of
the emitted chunk size 2, and only two of the three rows are ever yielded. -/
theorem C10_trailing_witness :
    linesEx.length % (1 + 1) ≠ 0 ∧
      ((td_matrix_gen linesEx tsEx 1).map List.length).sum < linesEx.length :=
  ⟨by decide, C10_trailing_docs_dropped linesEx tsEx 1 (by decide)⟩

/-- C6: on the scenario hierarchy A at 1, B at 1.001, C at 1.001.001 with own
counts 2, 3, 5, the frequency computation of get_term_freqs yields 10 for A,
8 for B and 5 for C. -/
theorem C6_freq_scenario :
    (get_term_freqs 5 countsABC ttABC [uA, uB, uC]).map (fun f => (f uA, f uB, f uC))
      = some (10, 8, 5) := by decide

/-- C5 counterexample: for a leaf whose memo entry is already set to 7 with own
count 3, freq returns the memoized 7, not the claimed own count plus the empty
child sum. -/
theorem C5_freq_memo_counterexample :
    freq countsC5 memoC5 ttLeafA 5 uA = some 7 ∧ countsC5 uA = 3 ∧
      get_children uA ttLeafA = some [] ∧ (7 : ℤ) ≠ 3 := by decide

/-- C5 amended: freq returns the memoized value whenever it is not the -1
sentinel; with an unset memo it returns the own count at a leaf, and otherwise
some v exactly when every child recursion succeeds and v is the own count plus
the children's sum.  The memo is never written by freq itself: the driver
records each value after the call returns. -/
theorem C5_freq_branches {α : Type} [DecidableEq α] (fuel : ℕ) (uid : α)
    (counts memo : α → ℤ) (tt : TreeDict α) :
    (memo uid ≠ -1 → freq counts memo tt (fuel + 1) uid = some (memo uid)) ∧
    (memo uid = -1 → get_children uid tt = some [] →
      freq counts memo tt (fuel + 1) uid = some (counts uid)) ∧
    (memo uid = -1 → ∀ c cs, get_children uid tt = some (c :: cs) → ∀ v,
      (freq counts memo tt (fuel + 1) uid = some v ↔
        ∃ vs, optList (fun child => freq counts memo tt fuel child) (c :: cs) = some vs ∧
          v = counts uid + vs.sum)) := by
  refine ⟨?_, ?_, ?_⟩
  · intro h
    simp only [freq]
    rw [if_pos h]
  · intro h hc
    simp only [freq]
    rw [if_neg (by simp [h]), hc]
  · intro h c cs hc v
    simp only [freq]
    rw [if_neg (by simp [h]), hc]
    show ((optList (fun child => freq counts memo tt fuel child) (c :: cs)).map
      (fun vs => counts uid + vs.sum) = some v) ↔ _
    rw [Option.map_eq_some']
    constructor
    · rintro ⟨vs, hvs, rfl⟩
      exact ⟨vs, hvs, rfl⟩
    · rintro ⟨vs, hvs, rfl⟩
      exact ⟨vs, hvs, rfl⟩

/-- C5 witness: the three branches of the amended claim at concrete inputs:
the set memo is returned, the unset-memo leaf returns its count, and the
unset-memo parent satisfies the child-sum characterization. -/
theorem C5_freq_witness :
    freq countsC5 memoC5 ttLeafA 1 uA = some (memoC5 uA) ∧
    freq countsW freshMemo ttLeafA 1 uA = some (countsW uA) ∧
    (freq countsC7 freshMemo ttAB 2 uA = some 5 ↔
      ∃ vs, optList (fun child => freq countsC7 freshMemo ttAB 1 child) (uB :: []) = some vs ∧
        (5 : ℤ) = countsC7 uA + vs.sum) :=
  ⟨(C5_freq_branches 0 uA countsC5 memoC5 ttLeafA).1 (by decide),
   (C5_freq_branches 0 uA countsW freshMemo ttLeafA).2.1 (by decide) (by decide),
   (C5_freq_branches 1 uA countsC7 freshMemo ttAB).2.2 (by decide) uB [] (by decide) 5⟩

/-- C7 counterexample: A has own count 5 and child B with count 0, so the
frequency equals A's own count although A is not a leaf, refuting equality
only at leaves. -/
theorem C7_freq_equality_not_leaf_counterexample :
    freq countsC7 freshMemo ttAB 3 uA = some (countsC7 uA) ∧
      get_children uA ttAB ≠ some [] := by decide

/-- C7 amended: with non-negative own counts and a fresh memo, a successful
frequency computation is at least the own count, and a leaf returns exactly
its own count. -/
theorem C7_freq_ge_own_count {α : Type} [DecidableEq α] :
    ∀ (fuel : ℕ) (uid : α) (counts : α → ℤ) (tt : TreeDict α) (v : ℤ),
      (∀ t, 0 ≤ counts t) → freq counts freshMemo tt fuel uid = some v →
      counts uid ≤ v ∧ (get_children uid tt = some [] → v = counts uid) := by
  intro fuel
  induction fuel with
  | zero =>
    intro uid counts tt v hpos h
    simp [freq] at h
  | succ fuel ih =>
    intro uid counts tt v hpos h
    simp only [freq, freshMemo] at h
    rw [if_neg (by simp)] at h
    cases hc : get_children uid tt with
    | none => rw [hc] at h; simp at h
    | some cs =>
      rw [hc] at h
      cases cs with
      | nil =>
        simp only [Option.some.injEq] at h
        exact ⟨le_of_eq h, fun _ => h.symm⟩
      | cons c cs0 =>
        obtain ⟨vs, hvs, hv⟩ := Option.map_eq_some'.mp h
        have hsum : 0 ≤ vs.sum := by
          refine List.sum_nonneg ?_
          intro y hy
          obtain ⟨x, _, hfx⟩ := optList_sound hvs y hy
          have h1 := (ih x counts tt y hpos (by simpa [freshMemo] using hfx)).1
          have h2 := hpos x
          omega
        constructor
        · omega
        · intro hleaf
          simp at hleaf

/-- C7 witness: the single leaf A with constant count 4 computes frequency 4,
matching both conjuncts of the amended claim. -/
theorem C7_freq_witness :
    countsW uA ≤ 4 ∧ (get_children uA ttLeafA = some [] → (4 : ℤ) = countsW uA) :=
  C7_freq_ge_own_count 2 uA countsW ttLeafA 4 (fun t => by simp [countsW]) (by decide)

/-- C4 counterexample: two distinct terms both claim position 1; building the
reverse index raises no error and silently maps the position to the later
term. -/
theorem C4_rev_silent_overwrite_counterexample :
    revLookup (term_trees_rev [(uA, [t1]), (uB, [t1])]) t1 = some uB ∧ uA ≠ uB := by decide

/-- C4 amended: the reverse index construction never fails; when several terms
claim the same position string the dict comprehension resolves the conflict
last-writer-wins, so the lookup returns the last claimant in input order. -/
theorem C4_rev_last_claim_wins {α : Type} [DecidableEq α] (pre post : List (α × List Pos))
    (u : α) (ts : List Pos) (p : Pos) (hp : p ∈ ts) (hpost : ∀ e ∈ post, p ∉ e.2) :
    revLookup (term_trees_rev (pre ++ (u, ts) :: post)) p = some u := by
  unfold revLookup term_trees_rev
  rw [List.flatMap_append, List.flatMap_cons, List.foldl_append, List.foldl_append]
  rw [foldl_assign_mem hp]
  refine foldl_assign_no_key ?_ _
  intro e he
  obtain ⟨ent, hent, hmem⟩ := List.mem_flatMap.mp he
  obtain ⟨t0, ht0, heq⟩ := List.mem_map.mp hmem
  subst heq
  intro hc
  have ht0p : t0 = p := hc
  exact hpost ent hent (ht0p ▸ ht0)

/-- C4 witness: with A then B both claiming position 1 and B last, the lookup
returns B. -/
theorem C4_rev_witness :
    revLookup (term_trees_rev ([(uA, [t1])] ++ (uB, [t1]) :: [])) t1 = some uB :=
  C4_rev_last_claim_wins [(uA, [t1])] [] uB [t1] t1 (by decide) (by simp)

/-- C8 counterexample: a term whose only position is the empty string, like
terms outside every tree, gets an empty ancestor list that does not contain
the term itself. -/
theorem C8_ancestors_counterexample :
    get_ancestors 5 uA ttEmptyPos revNone = some [] ∧ uA ∉ ([] : List String) :=
  ⟨by decide, by simp⟩

/-- C8 amended: whenever the queried term owns a non-empty position that the
reverse index maps back to it, a successful get_ancestors run returns a list
containing the term itself. -/
theorem C8_ancestors_contains_self {α : Type} [DecidableEq α] (fuel : ℕ) (uid : α)
    (tt : TreeDict α) (rev : Pos → Option α) (vals : List Pos) (p : Pos) (l : List α)
    (hv : dlookup tt uid = some vals) (hp : p ∈ vals) (hne : p ≠ [])
    (hrev : rev p = some uid) (h : get_ancestors fuel uid tt rev = some l) :
    uid ∈ l := by
  unfold get_ancestors at h
  split at h
  · simp at h
  · rename_i vals0 hv0
    split at h
    · simp at h
    · rename_i positions hloop
      split at h
      · simp at h
      · rename_i owners howners
        simp only [Option.some.injEq] at h
        subst h
        rw [hv] at hv0
        simp only [Option.some.injEq] at hv0
        subst hv0
        have hpos : p ∈ positions :=
          ancLoop_mem hloop (List.mem_filter.mpr ⟨hp, by simp [hne]⟩) hne
        exact mem_dedupFirst.mpr (optList_mem howners hpos hrev)

/-- C8 witness: B at position 1.001 with a consistent reverse index appears in
its own ancestor list. -/
theorem C8_ancestors_witness : uB ∈ [uB, uA] :=
  C8_ancestors_contains_self 10 uB ttAB revAB [t1001] t1001 [uB, uA]
    (by decide) (by decide) (by decide) (by decide) (by decide)

/-- C2 counterexample: 1.001 occurs inside 11.001.002 as a substring at depth
one more, so the source reports B as a child of A, while the prefix reading of
the claim selects nothing. -/
theorem C2_children_substring_counterexample :
    get_children uA ttC2 = some [uB] ∧ childrenSpec uA ttC2 = [] := by decide

/-- C2 amended: when the term's first position is nonempty, get_children
returns, without duplicates, exactly the different terms owning a position
that contains one of the term's positions as a substring and whose depth is
one more; when the first position is the empty string it returns the empty
list.  Both facts are the two sides of the iff below. -/
theorem C2_children_characterization {α : Type} [DecidableEq α] (tt : TreeDict α)
    (uid : α) (p : Pos) (ps : List Pos) (hv : dlookup tt uid = some (p :: ps)) :
    ∃ l, get_children uid tt = some l ∧ l.Nodup ∧
      ∀ k, (k ∈ l ↔ (p ≠ [] ∧ ∃ tree ∈ p :: ps, ∃ vs, (k, vs) ∈ tt ∧ ∃ val ∈ vs,
        pyInStr tree val = true ∧ uid ≠ k ∧ depth val = depth tree + 1)) := by
  have hunfold : get_children uid tt =
      if p.length = 0 then some [] else
        some (dedupFirst ((p :: ps).flatMap (fun tree =>
          tt.flatMap (fun kv =>
            kv.2.filterMap (fun val =>
              if pyInStr tree val = true ∧ uid ≠ kv.1 ∧ depth val = depth tree + 1
              then some kv.1 else none))))) := by
    unfold get_children
    rw [hv]
  by_cases hp : p = []
  · refine ⟨[], ?_, List.nodup_nil, ?_⟩
    · rw [hunfold, if_pos (by simp [hp])]
    · intro k
      simp [hp]
  · refine ⟨dedupFirst ((p :: ps).flatMap (fun tree =>
        tt.flatMap (fun kv =>
          kv.2.filterMap (fun val =>
            if pyInStr tree val = true ∧ uid ≠ kv.1 ∧ depth val = depth tree + 1
            then some kv.1 else none)))), ?_, nodup_dedupFirst _, ?_⟩
    · rw [hunfold, if_neg (by simpa [List.length_eq_zero] using hp)]
    · intro k
      rw [mem_dedupFirst]
      constructor
      · intro hk
        obtain ⟨tree, htree, hk1⟩ := List.mem_flatMap.mp hk
        obtain ⟨kv, hkv, hk2⟩ := List.mem_flatMap.mp hk1
        obtain ⟨val, hval, hk3⟩ := List.mem_filterMap.mp hk2
        rw [Option.ite_none_right_eq_some, Option.some.injEq] at hk3
        obtain ⟨⟨hin, hne, hd⟩, hk1eq⟩ := hk3
        refine ⟨hp, tree, htree, kv.2, ?_, val, hval, hin, hk1eq ▸ hne, hd⟩
        have : kv = (k, kv.2) := by
          rw [← hk1eq]
        exact this ▸ hkv
      · rintro ⟨-, tree, htree, vs, hvs, val, hval, hin, hne, hd⟩
        refine List.mem_flatMap.mpr ⟨tree, htree, ?_⟩
        refine List.mem_flatMap.mpr ⟨(k, vs), hvs, ?_⟩
        refine List.mem_filterMap.mpr ⟨val, hval, ?_⟩
        rw [Option.ite_none_right_eq_some, Option.some.injEq]
        exact ⟨⟨hin, hne, hd⟩, rfl⟩

/-- C2 witness: the characterization applied to the concrete two-term
hierarchy where A's position is 1.001. -/
theorem C2_children_witness :
    ∃ l, get_children uA ttC2 = some l ∧ l.Nodup ∧
      ∀ k, (k ∈ l ↔ (t1001 ≠ [] ∧ ∃ tree ∈ t1001 :: ([] : List Pos), ∃ vs,
        (k, vs) ∈ ttC2 ∧ ∃ val ∈ vs,
        pyInStr tree val = true ∧ uA ≠ k ∧ depth val = depth tree + 1)) :=
  C2_children_characterization ttC2 uA t1001 [] (by decide)

